import Mathlib

/-!
# Verification of the FaitNert-graph transit core

Shallow embedding of the repository's transit-graph core:

* `Station`, `Edge`, `Graph` with `addNode` / `addEdge` / `getStation` /
  `getAllStations` (the `GraphStore`),
* `dijkstra`, the dense single-source shortest-distance computation
  (the `ShortestPathEngine`),
* `weights`, `scoredOf`, `calculateResults`, `computeBestStations`
  (the `RankingEngine` of `calculateResults` in `App.tsx`).

JavaScript `Map`s are embedded as association lists in insertion order
(`Map.set` updates in place or appends; `Map.get` returns the first hit),
JavaScript `Set`s as lists in insertion order, numbers as `Int`/`ℚ`, and
the distance value `Infinity` as `⊤ : WithTop Int`.  The `while` loop of
`dijkstra` is embedded as a fuel-indexed recursion; the initial fuel is
the number of unvisited stations, which bounds the iteration count since
every non-breaking pass removes one unvisited station.
-/

/-- A transit station record (`Station` in `graph.ts`). -/
structure Station where
  id : String
  name : String
  rent : Int
  safetyScore : Int
deriving DecidableEq, Repr

/-- A directed adjacency entry (`Edge` in `graph.ts`). -/
structure Edge where
  «to» : String
  weight : Int
deriving DecidableEq, Repr

/-- The graph store: `nodes : Map<string, Station>` keyed by `station.id`
and `edges : Map<string, Edge[]>`, both in insertion order. -/
structure Graph where
  nodes : List Station
  edges : List (String × List Edge)
deriving DecidableEq, Repr

namespace Graph

/-- `new Graph()`. -/
def empty : Graph := ⟨[], []⟩

/-- The node-key list (`graph.nodes.keys()` in insertion order). -/
def nodeIds (g : Graph) : List String := g.nodes.map (·.id)

/-- The adjacency-key list (`graph.edges.keys()` in insertion order). -/
def edgeKeys (g : Graph) : List String := g.edges.map (·.1)

/-- `addNode`: if `station.id` is already present, no-op; otherwise insert
the station and an empty adjacency list. -/
def addNode (g : Graph) (station : Station) : Graph :=
  if station.id ∈ g.nodeIds then g
  else ⟨g.nodes ++ [station], g.edges ++ [(station.id, [])]⟩

/-- `this.edges.get(key)?.push(e)`: append `e` to the adjacency list of
`key` when that list exists, and do nothing otherwise. -/
def pushEdge (edges : List (String × List Edge)) (key : String) (e : Edge) :
    List (String × List Edge) :=
  edges.map (fun p => if p.1 = key then (p.1, p.2 ++ [e]) else p)

/-- `addEdge(from, to, weight)`: push `{to, weight}` onto `from`'s list and
`{to: from, weight}` onto `to`'s list, each only when the list exists. -/
def addEdge (g : Graph) (fromId toId : String) (weight : Int) : Graph :=
  ⟨g.nodes, pushEdge (pushEdge g.edges fromId ⟨toId, weight⟩) toId ⟨fromId, weight⟩⟩

/-- `getStation(id)`: first node with the given id, if any. -/
def getStation (g : Graph) (id : String) : Option Station :=
  g.nodes.find? (fun st => st.id = id)

/-- `getAllStations()`: the stations in insertion order. -/
def getAllStations (g : Graph) : List Station := g.nodes

/-- `edges.get(id) || []` on a raw adjacency map. -/
def lookupEdges (es : List (String × List Edge)) (id : String) : List Edge :=
  match es.find? (fun p => p.1 = id) with
  | some p => p.2
  | none => []

/-- `graph.edges.get(id) || []`. -/
def getEdges (g : Graph) (id : String) : List Edge :=
  lookupEdges g.edges id

end Graph

/-- A tentative distance: a number of minutes or `Infinity`. -/
abbrev DistVal := WithTop Int

/-- `distances.get(k)` on a map that is total on the graph's stations;
the `!` in the source asserts presence, absent keys read as `Infinity`. -/
def getD (m : List (String × DistVal)) (k : String) : DistVal :=
  match m.find? (fun p => p.1 = k) with
  | some p => p.2
  | none => ⊤

/-- `distances.set(k, v)`: update the entry in place when the key is
present, append otherwise (JavaScript `Map.set` semantics). -/
def setD (m : List (String × DistVal)) (k : String) (v : DistVal) :
    List (String × DistVal) :=
  if k ∈ m.map (·.1) then m.map (fun p => if p.1 = k then (p.1, v) else p)
  else m ++ [(k, v)]

/-- The body of the minimum-selection pass over one unvisited station:
replace the `(currentId, minDistance)` accumulator exactly when a
strictly smaller distance is seen. -/
def minStep (m : List (String × DistVal)) (acc : Option String × DistVal)
    (id : String) : Option String × DistVal :=
  if getD m id < acc.2 then (some id, getD m id) else acc

/-- The minimum-selection pass of the `while` loop: traverse the
unvisited stations in order, tracking `(currentId, minDistance)`. -/
def foldMinAux (m : List (String × DistVal)) :
    List String → Option String × DistVal → Option String × DistVal
  | [], acc => acc
  | id :: rest, acc => foldMinAux m rest (minStep m acc id)

/-- `(currentId, minDistance)` after the selection pass, starting from
`(null, Infinity)`. -/
def foldMin (unvisited : List String) (m : List (String × DistVal)) :
    Option String × DistVal :=
  foldMinAux m unvisited (none, ⊤)

/-- The body of the relaxation pass for one edge: when the target is
still unvisited, lower its distance to `minDistance + weight` if that is
strictly smaller. -/
def relaxStep (minD : DistVal) (unvisited : List String)
    (m : List (String × DistVal)) (e : Edge) : List (String × DistVal) :=
  if e.«to» ∈ unvisited then
    if minD + (e.weight : DistVal) < getD m e.«to» then
      setD m e.«to» (minD + (e.weight : DistVal))
    else m
  else m

/-- The relaxation pass: apply `relaxStep` to the selected station's
edges in order. -/
def relaxAll (edges : List Edge) (minD : DistVal) (unvisited : List String)
    (m : List (String × DistVal)) : List (String × DistVal) :=
  match edges with
  | [] => m
  | e :: rest => relaxAll rest minD unvisited (relaxStep minD unvisited m e)

/-- The `while (unvisited.size > 0)` loop of `dijkstra`, fuel-indexed. -/
def dijkstraLoop (g : Graph) :
    Nat → List String → List (String × DistVal) → List (String × DistVal)
  | 0, _, m => m
  | fuel + 1, unvisited, m =>
    if unvisited = [] then m
    else
      match foldMin unvisited m with
      | (none, _) => m
      | (some currentId, minD) =>
        if minD = ⊤ then m
        else
          dijkstraLoop g fuel (unvisited.erase currentId)
            (relaxAll (g.getEdges currentId) minD (unvisited.erase currentId) m)

/-- `dijkstra(graph, startId)`: distances initialised to `Infinity` for
every station, then `startId ↦ 0`, then the main loop. -/
def dijkstra (g : Graph) (startId : String) : List (String × DistVal) :=
  let ids := g.nodeIds
  let m := setD (ids.map (fun id => (id, (⊤ : DistVal)))) startId 0
  dijkstraLoop g ids.length ids m

/-! ## The ranking engine (`calculateResults` in `App.tsx`)

The React component reads `params` and pushes results into component
state; the embedding is the underlying pure function of the graph's
station list, the two distance maps and the numeric parameters.
`number` arithmetic is embedded over `ℚ`. -/

/-- The category of the fixed explanation string chosen by
`generateMockAIReasons`; the rendered text is presentation-only, the
selection rule on `|timeA - timeB|` is part of the contract. -/
inductive ReasonCat where
  | balanced
  | aFavor
  | bFavor
deriving DecidableEq, Repr

/-- `generateMockAIReasons(name, timeA, timeB)`, abstracted to the
category of the returned string. -/
def generateMockAIReasons (timeA timeB : Int) : ReasonCat :=
  if |timeA - timeB| ≤ 5 then .balanced
  else if timeA < timeB then .aFavor
  else .bFavor

/-- A `StationResult`: the station spread together with its commute
times, score, and explanation category. -/
structure StationResult where
  station : Station
  timeA : Int
  timeB : Int
  score : ℚ
  aiReason : ReasonCat
deriving DecidableEq, Repr

/-- `Math.max` on two rationals (kernel-evaluable form of `max`). -/
def qmax (x y : ℚ) : ℚ := if x ≤ y then y else x

/-- `Math.min` on two rationals (kernel-evaluable form of `min`). -/
def qmin (x y : ℚ) : ℚ := if x ≤ y then x else y

/-- The weight derivation of `calculateResults` (lines 88–98): start from
`wA = wB = 1` and override one side depending on `ratio`'s side of 50. -/
def weights (ratio : ℚ) : ℚ × ℚ :=
  if ratio < 50 then
    (1 + (50 - ratio) / 25, qmax (1/2) (1 - (50 - ratio) / 50))
  else if 50 < ratio then
    (qmax (1/2) (1 - (ratio - 50) / 50), 1 + (ratio - 50) / 25)
  else (1, 1)

/-- `distA.get(station.id)`: `none` is JavaScript `undefined`. -/
def getOpt (m : List (String × DistVal)) (k : String) : Option DistVal :=
  (m.find? (fun p => p.1 = k)).map (·.2)

/-- Collapse the guard `timeX === undefined || timeX === Infinity`:
the finite value if there is one. -/
def finVal : Option DistVal → Option Int
  | some (t : Int) => some t
  | _ => none

/-- The per-station body of the `stations.forEach` in `calculateResults`
(lines 102–131): skip the station unless both distances are present and
finite, otherwise score it. -/
def scoredOf (distA distB : List (String × DistVal)) (wA wB lam budget : ℚ)
    (st : Station) : Option StationResult :=
  match finVal (getOpt distA st.id), finVal (getOpt distB st.id) with
  | some timeA, some timeB =>
    let scoreSum : ℚ := wA * timeA + wB * timeB
    let scoreFair : ℚ := qmax (wA * timeA) (wB * timeB)
    let weightedTimeScore : ℚ := lam * scoreFair + (1 - lam) * scoreSum
    let displayScore : ℚ := 100 - weightedTimeScore / 120 * 100
    let displayScore : ℚ :=
      if budget < (st.rent : ℚ) then displayScore - 15 else displayScore
    some ⟨st, timeA, timeB, qmax 0 (qmin 100 displayScore),
      generateMockAIReasons timeA timeB⟩
  | _, _ => none

/-- The list `scoredStations` built by the `forEach` (lines 100–131), in
station listing order. -/
def scoredStations (stations : List Station)
    (distA distB : List (String × DistVal)) (ratio lam budget : ℚ) :
    List StationResult :=
  stations.filterMap (scoredOf distA distB (weights ratio).1 (weights ratio).2 lam budget)

/-- `scoredStations.sort((a, b) => b.score - a.score)`: JavaScript's
`Array.prototype.sort` is stable, and a stable sort under the comparator
`b.score - a.score` is the insertion sort that puts `a` before `b`
exactly when `b.score ≤ a.score`. -/
def sortByScoreDesc (l : List StationResult) : List StationResult :=
  l.insertionSort (fun a b => b.score ≤ a.score)

/-- `calculateResults` (lines 84–135) as a pure function: score, sort
descending, keep the first 10. -/
def calculateResults (stations : List Station)
    (distA distB : List (String × DistVal)) (ratio lam budget : ℚ) :
    List StationResult :=
  (sortByScoreDesc (scoredStations stations distA distB ratio lam budget)).take 10

/-- The end-to-end query of `App.tsx`: two `dijkstra` runs feeding
`calculateResults` (the spec's `ComputeBestStations`). -/
def computeBestStations (g : Graph) (workplaceA workplaceB : String)
    (ratio lam budget : ℚ) : List StationResult :=
  calculateResults g.getAllStations (dijkstra g workplaceA)
    (dijkstra g workplaceB) ratio lam budget

/-! ## Auxiliary predicates and concrete fixtures -/

/-- Graphs reachable by the written construction discipline: the empty
graph, `addNode` on anything, and `addEdge` only when both endpoints
already own adjacency lists (the precondition the spec attaches to
`addEdge`). -/
inductive Graph.Built : Graph → Prop where
  | empty : Graph.Built Graph.empty
  | node (g : Graph) (st : Station) : Graph.Built g → Graph.Built (g.addNode st)
  | edge (g : Graph) (a b : String) (w : Int) : Graph.Built g →
      a ∈ g.edgeKeys → b ∈ g.edgeKeys → Graph.Built (g.addEdge a b w)

/-- Adjacency symmetry: every stored directed entry has its reverse
entry with the same weight. -/
def Graph.Symm (g : Graph) : Prop :=
  ∀ u : String, ∀ e ∈ g.getEdges u, Edge.mk u e.weight ∈ g.getEdges e.«to»

/-- Whether a distance map holds a present, finite distance for `k`
(the complement of the skip guard in `calculateResults`). -/
def finiteAt (m : List (String × DistVal)) (k : String) : Bool :=
  (finVal (getOpt m k)).isSome

instance : IsTotal StationResult (fun a b => b.score ≤ a.score) :=
  ⟨fun a b => le_total b.score a.score⟩

instance : IsTrans StationResult (fun a b => b.score ≤ a.score) :=
  ⟨fun _ _ _ h h' => le_trans h' h⟩

/-- Fixture station `X` (rent 100, safety 3). -/
def stX : Station := ⟨"X", "X", 100, 3⟩

/-- Fixture station `Y`. -/
def stY : Station := ⟨"Y", "Y", 200, 4⟩

/-- Fixture station `Z`. -/
def stZ : Station := ⟨"Z", "Z", 300, 5⟩

/-- The spec's worked example: stations `X`, `Y`, `Z` in a line with
edge weights 3 and 4. -/
def gXYZ : Graph :=
  ((((Graph.empty.addNode stX).addNode stY).addNode stZ).addEdge "X" "Y" 3).addEdge "Y" "Z" 4

/-- A graph holding only station `X`. -/
def gX : Graph := Graph.empty.addNode stX

/-- A graph holding stations `X` and `Y` and no edges. -/
def gXY : Graph := (Graph.empty.addNode stX).addNode stY

/-- A concrete ranking input: station `X` sits 5 minutes from
workplace A. -/
def dAX : List (String × DistVal) := [("X", ((5 : Int) : DistVal))]

/-- A concrete ranking input: station `X` sits 7 minutes from
workplace B. -/
def dBX : List (String × DistVal) := [("X", ((7 : Int) : DistVal))]

/-- The scored result of station `X` under `dAX`/`dBX`, equal weights,
`lambda = 1/2` and budget 150000. -/
def rEx : StationResult := ⟨stX, 5, 7, 1105/12, .balanced⟩

/-! ## Association-map lemmas -/

/-- Reading back the key just written. -/
theorem getD_setD_self (m : List (String × DistVal)) (k : String) (v : DistVal) :
    getD (setD m k v) k = v := by
  unfold setD
  split
  case isTrue h =>
    induction m with
    | nil => simp at h
    | cons p m ih =>
      by_cases hp : p.1 = k
      · simp [getD, List.find?, hp]
      · simp only [List.map_cons, List.mem_cons] at h
        rcases h with h | h
        · exact absurd h.symm hp
        · simpa [getD, List.find?, hp] using ih h
  case isFalse h =>
    induction m with
    | nil => simp [getD, List.find?]
    | cons p m ih =>
      have hp : p.1 ≠ k := by
        intro hk
        exact h (by simp [hk])
      have h' : k ∉ m.map (·.1) := fun hk => h (by simp [hk])
      simpa [getD, List.find?, hp] using ih h'

/-- Reading an empty map. -/
theorem getD_nil (k : String) : getD [] k = ⊤ := rfl

/-- Unfolding a map read over a cons cell. -/
theorem getD_cons (x : String × DistVal) (m : List (String × DistVal)) (k : String) :
    getD (x :: m) k = if x.1 = k then x.2 else getD m k := by
  unfold getD
  rw [List.find?_cons]
  by_cases h : x.1 = k <;> simp [h]

/-- The in-place-update branch of `setD` leaves other keys unchanged. -/
theorem getD_mapUpdate_ne (m : List (String × DistVal)) (k : String) (v : DistVal)
    (k' : String) (h : k' ≠ k) :
    getD (m.map (fun p => if p.1 = k then (p.1, v) else p)) k' = getD m k' := by
  induction m with
  | nil => rfl
  | cons p m ih =>
    rw [List.map_cons, getD_cons, getD_cons]
    by_cases hpk : p.1 = k
    · have hp' : p.1 ≠ k' := fun hk => h (show k' = k by rw [← hk]; exact hpk)
      simp [hpk, hp', ih, h, Ne.symm h]
    · by_cases hp' : p.1 = k'
      · simp [hpk, hp', h, Ne.symm h]
      · simp [hpk, hp', ih]

/-- The append branch of `setD` leaves other keys unchanged. -/
theorem getD_append_ne (m : List (String × DistVal)) (k : String) (v : DistVal)
    (k' : String) (h : k' ≠ k) :
    getD (m ++ [(k, v)]) k' = getD m k' := by
  induction m with
  | nil => simp [getD_cons, getD_nil, Ne.symm h]
  | cons p m ih =>
    rw [List.cons_append, getD_cons, getD_cons]
    by_cases hp : p.1 = k'
    · simp [hp]
    · simp [hp, ih]

/-- Writing one key leaves every other key's reading unchanged. -/
theorem getD_setD_ne (m : List (String × DistVal)) (k : String) (v : DistVal)
    (k' : String) (h : k' ≠ k) : getD (setD m k v) k' = getD m k' := by
  unfold setD
  split
  · exact getD_mapUpdate_ne m k v k' h
  · exact getD_append_ne m k v k' h

/-- A constant-`⊤` initial map reads `⊤` everywhere. -/
theorem getD_map_top (l : List String) (k : String) :
    getD (l.map (fun id => (id, (⊤ : DistVal)))) k = ⊤ := by
  induction l with
  | nil => simp [getD, List.find?]
  | cons x l ih =>
    by_cases hx : x = k
    · simp [getD, List.find?, hx]
    · simpa [getD, List.find?, hx] using ih

/-! ## Minimum-selection lemmas -/

/-- Once a candidate is selected, the selection pass never returns to
`null`. -/
theorem foldMinAux_fst_some (m : List (String × DistVal)) (U : List String)
    (acc : Option String × DistVal) (c : String) (hacc : acc.1 = some c) :
    (foldMinAux m U acc).1 ≠ none := by
  induction U generalizing acc c with
  | nil => simp [foldMinAux, hacc]
  | cons x U ih =>
    rw [foldMinAux]
    by_cases hx : getD m x < acc.2
    · exact ih _ x (by simp [minStep, hx])
    · exact ih _ c (by simp [minStep, hx, hacc])

/-- If the selection pass ends on `null`, no station ever fired the
strict comparison, and the accumulator is untouched. -/
theorem foldMinAux_unfired (m : List (String × DistVal)) (U : List String)
    (acc : Option String × DistVal) (h : (foldMinAux m U acc).1 = none) :
    foldMinAux m U acc = acc ∧ ∀ v ∈ U, ¬ getD m v < acc.2 := by
  induction U generalizing acc with
  | nil => exact ⟨rfl, by simp⟩
  | cons x U ih =>
    rw [foldMinAux] at h ⊢
    by_cases hx : getD m x < acc.2
    · exact absurd h (foldMinAux_fst_some m U _ x (by simp [minStep, hx]))
    · have hstep : minStep m acc x = acc := by simp [minStep, hx]
      rw [hstep] at h ⊢
      obtain ⟨h1, h2⟩ := ih acc h
      refine ⟨h1, ?_⟩
      intro v hv
      rcases List.mem_cons.mp hv with rfl | hv
      · exact hx
      · exact h2 v hv

/-- `currentId === null` at the end of the pass means every unvisited
station sits at `Infinity`. -/
theorem foldMin_none_top (U : List String) (m : List (String × DistVal))
    (h : (foldMin U m).1 = none) : ∀ v ∈ U, getD m v = ⊤ := by
  intro v hv
  have hn := (foldMinAux_unfired m U (none, ⊤) h).2 v hv
  by_contra hne
  exact hn (lt_top_iff_ne_top.mpr hne)

/-- A selected station comes from the unvisited set and carries its own
current distance. -/
theorem foldMinAux_some_spec (m : List (String × DistVal)) (U : List String) :
    ∀ acc c d, foldMinAux m U acc = (some c, d) →
      acc = (some c, d) ∨ (c ∈ U ∧ d = getD m c) := by
  induction U with
  | nil => exact fun acc c d h => Or.inl h
  | cons x U ih =>
    intro acc c d h
    rw [foldMinAux] at h
    by_cases hx : getD m x < acc.2
    · have hstep : minStep m acc x = (some x, getD m x) := by simp [minStep, hx]
      rw [hstep] at h
      rcases ih _ c d h with heq | hmem
      · have hx1 : x = c := by simpa using congrArg Prod.fst heq
        have hx2 : getD m x = d := congrArg Prod.snd heq
        exact Or.inr ⟨hx1 ▸ List.mem_cons_self x U, hx1 ▸ hx2.symm⟩
      · exact Or.inr ⟨List.mem_cons_of_mem _ hmem.1, hmem.2⟩
    · have hstep : minStep m acc x = acc := by simp [minStep, hx]
      rw [hstep] at h
      rcases ih _ c d h with heq | hmem
      · exact Or.inl heq
      · exact Or.inr ⟨List.mem_cons_of_mem _ hmem.1, hmem.2⟩

/-- Specification of a successful selection. -/
theorem foldMin_some_spec (U : List String) (m : List (String × DistVal))
    (c : String) (d : DistVal) (h : foldMin U m = (some c, d)) :
    c ∈ U ∧ d = getD m c := by
  rcases foldMinAux_some_spec m U (none, ⊤) c d h with heq | hmem
  · exact absurd (congrArg Prod.fst heq) (by simp)
  · exact hmem

/-- The selected distance is minimal over the unvisited stations. -/
theorem foldMinAux_le (m : List (String × DistVal)) (U : List String) :
    ∀ acc, (foldMinAux m U acc).2 ≤ acc.2 ∧
      ∀ v ∈ U, (foldMinAux m U acc).2 ≤ getD m v := by
  induction U with
  | nil => exact fun acc => ⟨le_rfl, by simp⟩
  | cons x U ih =>
    intro acc
    rw [foldMinAux]
    obtain ⟨h1, h2⟩ := ih (minStep m acc x)
    have hstep2 : (minStep m acc x).2 ≤ acc.2 := by
      by_cases hx : getD m x < acc.2
      · simp only [minStep, if_pos hx]; exact le_of_lt hx
      · simp [minStep, hx]
    have hstepx : (minStep m acc x).2 ≤ getD m x := by
      by_cases hx : getD m x < acc.2
      · simp [minStep, hx]
      · simp only [minStep, if_neg hx]; exact not_lt.mp hx
    refine ⟨le_trans h1 hstep2, ?_⟩
    intro v hv
    rcases List.mem_cons.mp hv with rfl | hv
    · exact le_trans h1 hstepx
    · exact h2 v hv

/-- Minimality of the selection over every unvisited station. -/
theorem foldMin_le (U : List String) (m : List (String × DistVal))
    (v : String) (hv : v ∈ U) : (foldMin U m).2 ≤ getD m v :=
  (foldMinAux_le m U (none, ⊤)).2 v hv

/-- A `(some s, 0)` accumulator survives stations that cannot beat 0. -/
theorem foldMinAux_stay (m : List (String × DistVal)) (s : String) :
    ∀ U : List String, (∀ v ∈ U, ¬ getD m v < (0 : DistVal)) →
      foldMinAux m U (some s, 0) = (some s, 0) := by
  intro U
  induction U with
  | nil => exact fun _ => rfl
  | cons x U ih =>
    intro hU
    rw [foldMinAux]
    have hx : minStep m (some s, (0 : DistVal)) x = (some s, 0) := by
      simp only [minStep, if_neg (hU x (List.mem_cons_self x U))]
    rw [hx]
    exact ih (fun v hv => hU v (List.mem_cons_of_mem _ hv))

/-- When the source sits at 0 and every other unvisited station at
`Infinity`, the selection pass picks the source with distance 0. -/
theorem foldMin_source (m : List (String × DistVal)) (s : String)
    (h0 : getD m s = 0) :
    ∀ U : List String, s ∈ U → (∀ v ∈ U, v ≠ s → getD m v = ⊤) →
      foldMin U m = (some s, 0) := by
  intro U
  induction U with
  | nil => exact fun hs => absurd hs (List.not_mem_nil s)
  | cons x U ih =>
    intro hs htop
    unfold foldMin at ih ⊢
    rw [foldMinAux]
    by_cases hx : x = s
    · subst hx
      have hstep : minStep m (none, ⊤) x = (some x, 0) := by
        simp only [minStep, h0]
        rw [if_pos (by decide : (0 : DistVal) < ⊤)]
      rw [hstep]
      apply foldMinAux_stay
      intro v hv
      by_cases hvs : v = x
      · rw [hvs, h0]; exact lt_irrefl 0
      · rw [htop v (List.mem_cons_of_mem _ hv) hvs]
        exact not_lt.mpr le_top
    · have hxtop : getD m x = ⊤ := htop x (List.mem_cons_self x U) hx
      have hstep : minStep m (none, ⊤) x = (none, ⊤) := by
        simp [minStep, hxtop]
      rw [hstep]
      exact ih ((List.mem_cons.mp hs).resolve_left (fun h => hx h.symm))
        (fun v hv hvs => htop v (List.mem_cons_of_mem _ hv) hvs)

/-! ## Relaxation lemmas -/

/-- One relaxation step only writes unvisited targets. -/
theorem relaxStep_getD_not_mem (minD : DistVal) (U : List String)
    (m : List (String × DistVal)) (e : Edge) (k : String) (hk : k ∉ U) :
    getD (relaxStep minD U m e) k = getD m k := by
  unfold relaxStep
  by_cases ht : e.«to» ∈ U
  · by_cases hlt : minD + (e.weight : DistVal) < getD m e.«to»
    · have hne : k ≠ e.«to» := fun h => hk (h ▸ ht)
      rw [if_pos ht, if_pos hlt, getD_setD_ne _ _ _ _ hne]
    · rw [if_pos ht, if_neg hlt]
  · rw [if_neg ht]

/-- The whole relaxation pass only writes unvisited targets. -/
theorem relaxAll_getD_not_mem (es : List Edge) (minD : DistVal)
    (U : List String) (m : List (String × DistVal)) (k : String) (hk : k ∉ U) :
    getD (relaxAll es minD U m) k = getD m k := by
  induction es generalizing m with
  | nil => rfl
  | cons e es ih =>
    rw [relaxAll, ih (relaxStep minD U m e), relaxStep_getD_not_mem _ _ _ _ _ hk]

/-- One relaxation step never increases a distance. -/
theorem relaxStep_getD_le (minD : DistVal) (U : List String)
    (m : List (String × DistVal)) (e : Edge) (k : String) :
    getD (relaxStep minD U m e) k ≤ getD m k := by
  unfold relaxStep
  by_cases ht : e.«to» ∈ U
  · by_cases hlt : minD + (e.weight : DistVal) < getD m e.«to»
    · by_cases hk : k = e.«to»
      · subst hk
        rw [if_pos ht, if_pos hlt, getD_setD_self]
        exact le_of_lt hlt
      · rw [if_pos ht, if_pos hlt, getD_setD_ne _ _ _ _ hk]
    · rw [if_pos ht, if_neg hlt]
  · rw [if_neg ht]

/-- The whole relaxation pass never increases a distance. -/
theorem relaxAll_getD_le (es : List Edge) (minD : DistVal) (U : List String)
    (m : List (String × DistVal)) (k : String) :
    getD (relaxAll es minD U m) k ≤ getD m k := by
  induction es generalizing m with
  | nil => exact le_rfl
  | cons e es ih =>
    rw [relaxAll]
    exact le_trans (ih (relaxStep minD U m e)) (relaxStep_getD_le _ _ _ _ _)

/-- After the pass, every relaxed unvisited target is bounded by
`minDistance + weight` of its edge. -/
theorem relaxAll_bound (es : List Edge) (minD : DistVal) (U : List String)
    (m : List (String × DistVal)) (e : Edge) (he : e ∈ es)
    (ht : e.«to» ∈ U) :
    getD (relaxAll es minD U m) e.«to» ≤ minD + (e.weight : DistVal) := by
  induction es generalizing m with
  | nil => cases he
  | cons e' es ih =>
    rw [relaxAll]
    rcases List.mem_cons.mp he with rfl | he'
    · have hstep : getD (relaxStep minD U m e) e.«to» ≤ minD + (e.weight : DistVal) := by
        unfold relaxStep
        rw [if_pos ht]
        by_cases hlt : minD + (e.weight : DistVal) < getD m e.«to»
        · rw [if_pos hlt, getD_setD_self]
        · rw [if_neg hlt]
          exact not_lt.mp hlt
      exact le_trans (relaxAll_getD_le _ _ _ _ _) hstep
    · exact ih (relaxStep minD U m e') he'

/-- With nonnegative weights a relaxation step never drops a distance
below `minDistance`. -/
theorem relaxStep_lower (minD : DistVal) (U : List String)
    (m : List (String × DistVal)) (e : Edge) (k : String)
    (hw : (0 : Int) ≤ e.weight) :
    min (getD m k) minD ≤ getD (relaxStep minD U m e) k := by
  unfold relaxStep
  by_cases ht : e.«to» ∈ U
  · by_cases hlt : minD + (e.weight : DistVal) < getD m e.«to»
    · by_cases hk : k = e.«to»
      · subst hk
        rw [if_pos ht, if_pos hlt, getD_setD_self]
        refine le_trans (min_le_right _ _) (le_add_of_nonneg_right ?_)
        exact_mod_cast hw
      · rw [if_pos ht, if_pos hlt, getD_setD_ne _ _ _ _ hk]
        exact min_le_left _ _
    · rw [if_pos ht, if_neg hlt]
      exact min_le_left _ _
  · rw [if_neg ht]
    exact min_le_left _ _

/-- With nonnegative weights the relaxation pass never drops any
distance below `minDistance`. -/
theorem relaxAll_lower (es : List Edge) (minD : DistVal) (U : List String)
    (m : List (String × DistVal)) (k : String)
    (hw : ∀ e ∈ es, (0 : Int) ≤ e.weight) :
    min (getD m k) minD ≤ getD (relaxAll es minD U m) k := by
  induction es generalizing m with
  | nil => exact min_le_left _ _
  | cons e es ih =>
    rw [relaxAll]
    have h1 := relaxStep_lower minD U m e k (hw e (List.mem_cons_self e es))
    have h2 := ih (relaxStep minD U m e) (fun e' he' => hw e' (List.mem_cons_of_mem _ he'))
    exact le_trans (le_min h1 (min_le_right _ _)) h2

/-! ## The main loop invariant

Two facts are maintained across iterations: every settled (visited)
station's distance is at or below every unvisited station's distance,
and every settled station has all its outgoing edges relaxed. -/

/-- Invariant preservation plus postcondition for the fueled `while`
loop: if the two invariants hold on entry and the fuel covers the
unvisited count, the final map satisfies the edge relaxation inequality
at every station of the graph. -/
theorem dijkstraLoop_triangle (g : Graph)
    (hw : ∀ k : String, ∀ e ∈ g.getEdges k, (0 : Int) ≤ e.weight) :
    ∀ (fuel : Nat) (U : List String) (m : List (String × DistVal)),
      U.Nodup → U.length ≤ fuel →
      (∀ u ∈ g.nodeIds, u ∉ U → ∀ v ∈ U, getD m u ≤ getD m v) →
      (∀ u ∈ g.nodeIds, u ∉ U → ∀ e ∈ g.getEdges u, e.«to» ∈ g.nodeIds →
        getD m e.«to» ≤ getD m u + (e.weight : DistVal)) →
      ∀ u ∈ g.nodeIds, ∀ e ∈ g.getEdges u, e.«to» ∈ g.nodeIds →
        getD (dijkstraLoop g fuel U m) e.«to» ≤
          getD (dijkstraLoop g fuel U m) u + (e.weight : DistVal) := by
  intro fuel
  induction fuel with
  | zero =>
    intro U m hnd hlen hb hc u hu e he hto
    have hU : U = [] := List.length_eq_zero.mp (Nat.le_zero.mp hlen)
    subst hU
    exact hc u hu (List.not_mem_nil u) e he hto
  | succ fuel ih =>
    intro U m hnd hlen hb hc u hu e he hto
    by_cases hUnil : U = []
    · subst hUnil
      simp only [dijkstraLoop, if_pos]
      exact hc u hu (List.not_mem_nil u) e he hto
    · rcases hfm : foldMin U m with ⟨copt, minD⟩
      cases copt with
      | none =>
        have hret : dijkstraLoop g (fuel + 1) U m = m := by
          simp only [dijkstraLoop, if_neg hUnil, hfm]
        rw [hret]
        have htop : ∀ v ∈ U, getD m v = ⊤ :=
          foldMin_none_top U m (by rw [hfm])
        by_cases huU : u ∈ U
        · rw [htop u huU, WithTop.top_add]
          exact le_top
        · exact hc u hu huU e he hto
      | some c =>
        have hspec := foldMin_some_spec U m c minD hfm
        have hminle : ∀ v ∈ U, minD ≤ getD m v := by
          intro v hv
          have := foldMin_le U m v hv
          rwa [hfm] at this
        by_cases hmtop : minD = ⊤
        · have hret : dijkstraLoop g (fuel + 1) U m = m := by
            simp only [dijkstraLoop, if_neg hUnil, hfm, if_pos hmtop]
          rw [hret]
          have htop : ∀ v ∈ U, getD m v = ⊤ := by
            intro v hv
            exact top_le_iff.mp (hmtop ▸ hminle v hv)
          by_cases huU : u ∈ U
          · rw [htop u huU, WithTop.top_add]
            exact le_top
          · exact hc u hu huU e he hto
        · have hret : dijkstraLoop g (fuel + 1) U m =
              dijkstraLoop g fuel (U.erase c)
                (relaxAll (g.getEdges c) minD (U.erase c) m) := by
            simp only [dijkstraLoop, if_neg hUnil, hfm, if_neg hmtop]
          rw [hret]
          have hcU : c ∈ U := hspec.1
          have hmc : minD = getD m c := hspec.2
          have hcU' : c ∉ U.erase c := by
            intro hcc
            exact ((List.Nodup.mem_erase_iff hnd).mp hcc).1 rfl
          have hlow : ∀ k, min (getD m k) minD ≤
              getD (relaxAll (g.getEdges c) minD (U.erase c) m) k :=
            fun k => relaxAll_lower _ _ _ _ _ (hw c)
          have hfix : ∀ x, x ∉ U.erase c →
              getD (relaxAll (g.getEdges c) minD (U.erase c) m) x = getD m x :=
            fun x hx => relaxAll_getD_not_mem _ _ _ _ _ hx
          have hercase : ∀ x, x ∈ U → x ∉ U.erase c → x = c := by
            intro x hxU hxE
            by_contra hxc
            exact hxE ((List.Nodup.mem_erase_iff hnd).mpr ⟨hxc, hxU⟩)
          refine ih (U.erase c) _ (List.Nodup.erase c hnd) ?_ ?_ ?_ u hu e he hto
          · have h1 : (U.erase c).length = U.length - 1 :=
              List.length_erase_of_mem hcU
            omega
          · -- visited ≤ unvisited after the step
            intro u' hu' hu'E v hvE
            have hvU : v ∈ U := List.mem_of_mem_erase hvE
            have hm'v : minD ≤ getD (relaxAll (g.getEdges c) minD (U.erase c) m) v := by
              have := hlow v
              rwa [min_eq_right (hminle v hvU)] at this
            by_cases huU : u' ∈ U
            · have hu'c : u' = c := hercase u' huU hu'E
              subst hu'c
              rw [hfix u' hu'E, ← hmc]
              exact hm'v
            · rw [hfix u' hu'E]
              have h1 : getD m u' ≤ getD m v := hb u' hu' huU v hvU
              have h2 : getD m u' ≤ minD := hmc ▸ hb u' hu' huU c hcU
              exact le_trans (le_min h1 h2) (hlow v)
          · -- settled stations keep their edges relaxed
            intro u' hu' hu'E e' he' hto'
            by_cases huU : u' ∈ U
            · have hu'c : u' = c := hercase u' huU hu'E
              subst hu'c
              rw [hfix u' hu'E, ← hmc]
              by_cases htoE : e'.«to» ∈ U.erase u'
              · exact relaxAll_bound _ _ _ _ e' he' htoE
              · rw [hfix e'.«to» htoE]
                have hwe : (0 : DistVal) ≤ (e'.weight : DistVal) := by
                  exact_mod_cast hw u' e' he'
                by_cases htoU : e'.«to» ∈ U
                · have hteq : e'.«to» = u' := hercase e'.«to» htoU htoE
                  rw [hteq, ← hmc]
                  exact le_add_of_nonneg_right hwe
                · have h1 : getD m e'.«to» ≤ minD := by
                    rw [hmc]
                    exact hb e'.«to» hto' htoU u' hcU
                  exact le_trans h1 (le_add_of_nonneg_right hwe)
            · rw [hfix u' hu'E]
              have h1 : getD m e'.«to» ≤ getD m u' + (e'.weight : DistVal) :=
                hc u' hu' huU e' he' hto'
              exact le_trans (relaxAll_getD_le _ _ _ _ _) h1

/-! ## Shortest-path theorems -/

/-- A station with a nonempty adjacency list owns an adjacency key. -/
theorem mem_edgeKeys_of_getEdges (g : Graph) (u : String) (e : Edge)
    (he : e ∈ g.getEdges u) : u ∈ g.edgeKeys := by
  unfold Graph.getEdges Graph.lookupEdges at he
  rcases hfind : g.edges.find? (fun p => p.1 = u) with _ | p
  · rw [hfind] at he
    cases he
  · have h1 : p.1 = u := by simpa using List.find?_some hfind
    have h2 : p ∈ g.edges := List.mem_of_find?_eq_some hfind
    exact h1 ▸ List.mem_map_of_mem (·.1) h2

/-- Lift a per-entry weight bound on the raw adjacency map to every
`getEdges` read. -/
theorem getEdges_weight_nonneg (g : Graph)
    (h : ∀ p ∈ g.edges, ∀ e ∈ p.2, (0 : Int) ≤ e.weight) :
    ∀ k : String, ∀ e ∈ g.getEdges k, (0 : Int) ≤ e.weight := by
  intro k e he
  unfold Graph.getEdges Graph.lookupEdges at he
  rcases hfind : g.edges.find? (fun p => p.1 = k) with _ | p
  · rw [hfind] at he
    cases he
  · rw [hfind] at he
    exact h p (List.mem_of_find?_eq_some hfind) e he

/-- C1.  For every well-formed graph (unique station ids, adjacency keys
matching stations, nonnegative stored weights), every valid source
station `s`, and every stored undirected edge `(u, v, w)` — both
directed adjacency entries present — the distance map returned by
`dijkstra` satisfies `dist[v] ≤ dist[u] + w` and `dist[u] ≤ dist[v] + w`,
where `⊤` (`Infinity`) marks unreachable stations. -/
theorem dijkstra_triangle (g : Graph) (s : String)
    (hnd : g.nodeIds.Nodup) (hkeys : g.edgeKeys = g.nodeIds)
    (hw : ∀ k : String, ∀ e ∈ g.getEdges k, (0 : Int) ≤ e.weight)
    (hs : s ∈ g.nodeIds) (u v : String) (w : Int)
    (huv : Edge.mk v w ∈ g.getEdges u) (hvu : Edge.mk u w ∈ g.getEdges v) :
    getD (dijkstra g s) v ≤ getD (dijkstra g s) u + (w : DistVal) ∧
    getD (dijkstra g s) u ≤ getD (dijkstra g s) v + (w : DistVal) := by
  have hu : u ∈ g.nodeIds := hkeys ▸ mem_edgeKeys_of_getEdges g u _ huv
  have hv : v ∈ g.nodeIds := hkeys ▸ mem_edgeKeys_of_getEdges g v _ hvu
  have hmain := dijkstraLoop_triangle g hw g.nodeIds.length g.nodeIds
    (setD (g.nodeIds.map (fun id => (id, (⊤ : DistVal)))) s 0)
    hnd le_rfl
    (fun u' hu' hU' => absurd hu' hU')
    (fun u' hu' hU' => absurd hu' hU')
  exact ⟨hmain u hu ⟨v, w⟩ huv hv, hmain v hv ⟨u, w⟩ hvu hu⟩

/-- Witness for C1 on the spec's three-station line. -/
theorem dijkstra_triangle_witness :
    getD (dijkstra gXYZ "X") "Y" ≤ getD (dijkstra gXYZ "X") "X" + ((3 : Int) : DistVal) ∧
    getD (dijkstra gXYZ "X") "X" ≤ getD (dijkstra gXYZ "X") "Y" + ((3 : Int) : DistVal) :=
  dijkstra_triangle gXYZ "X" (by decide) (by decide)
    (getEdges_weight_nonneg gXYZ (by decide)) (by decide) "X" "Y" 3
    (by decide) (by decide)

/-- Once the source has left the unvisited set with its distance pinned
at 0, the loop never touches it again. -/
theorem dijkstraLoop_source (g : Graph) :
    ∀ (fuel : Nat) (U : List String) (m : List (String × DistVal)) (s : String),
      s ∉ U → getD m s = 0 → getD (dijkstraLoop g fuel U m) s = 0 := by
  intro fuel
  induction fuel with
  | zero => exact fun U m s _ h0 => h0
  | succ fuel ih =>
    intro U m s hs h0
    by_cases hUnil : U = []
    · subst hUnil
      simp only [dijkstraLoop, if_pos]
      exact h0
    · rcases hfm : foldMin U m with ⟨copt, minD⟩
      cases copt with
      | none =>
        have hret : dijkstraLoop g (fuel + 1) U m = m := by
          simp only [dijkstraLoop, if_neg hUnil, hfm]
        rw [hret]
        exact h0
      | some c =>
        by_cases hmtop : minD = ⊤
        · have hret : dijkstraLoop g (fuel + 1) U m = m := by
            simp only [dijkstraLoop, if_neg hUnil, hfm, if_pos hmtop]
          rw [hret]
          exact h0
        · have hret : dijkstraLoop g (fuel + 1) U m =
              dijkstraLoop g fuel (U.erase c)
                (relaxAll (g.getEdges c) minD (U.erase c) m) := by
            simp only [dijkstraLoop, if_neg hUnil, hfm, if_neg hmtop]
          rw [hret]
          have hsE : s ∉ U.erase c := fun h => hs (List.mem_of_mem_erase h)
          exact ih _ _ s hsE
            ((relaxAll_getD_not_mem _ _ _ _ _ hsE).trans h0)

/-- C5.  For every graph (with unique station ids) and every source `s`,
the distance map returned by `dijkstra` maps `s` itself to 0 — also when
`s` is not a station of the graph. -/
theorem dijkstra_source_zero (g : Graph) (s : String)
    (hnd : g.nodeIds.Nodup) : getD (dijkstra g s) s = 0 := by
  have hinit0 : getD (setD (g.nodeIds.map (fun id => (id, (⊤ : DistVal)))) s 0) s = 0 :=
    getD_setD_self _ _ _
  by_cases hs : s ∈ g.nodeIds
  · have htop : ∀ v ∈ g.nodeIds, v ≠ s →
        getD (setD (g.nodeIds.map (fun id => (id, (⊤ : DistVal)))) s 0) v = ⊤ := by
      intro v _ hvs
      rw [getD_setD_ne _ _ _ _ hvs, getD_map_top]
    have hfm : foldMin g.nodeIds
        (setD (g.nodeIds.map (fun id => (id, (⊤ : DistVal)))) s 0) = (some s, 0) :=
      foldMin_source _ s hinit0 g.nodeIds hs htop
    have hids : g.nodeIds ≠ [] := by
      intro h
      rw [h] at hs
      cases hs
    obtain ⟨n, hn⟩ : ∃ n, g.nodeIds.length = n + 1 := by
      rcases hlen : g.nodeIds.length with _ | n
      · exact absurd (List.length_eq_zero.mp hlen) hids
      · exact ⟨n, rfl⟩
    have hsE : s ∉ g.nodeIds.erase s := by
      intro h
      exact ((List.Nodup.mem_erase_iff hnd).mp h).1 rfl
    have hret : dijkstra g s =
        dijkstraLoop g n (g.nodeIds.erase s)
          (relaxAll (g.getEdges s) 0 (g.nodeIds.erase s)
            (setD (g.nodeIds.map (fun id => (id, (⊤ : DistVal)))) s 0)) := by
      show dijkstraLoop g g.nodeIds.length g.nodeIds _ = _
      rw [hn]
      simp only [dijkstraLoop, if_neg hids, hfm,
        if_neg (by decide : ¬((0 : DistVal) = ⊤))]
    rw [hret]
    exact dijkstraLoop_source g n _ _ s hsE
      ((relaxAll_getD_not_mem _ _ _ _ _ hsE).trans hinit0)
  · exact dijkstraLoop_source g _ _ _ s hs hinit0

/-- Witness for C5 on the spec's three-station line. -/
theorem dijkstra_source_zero_witness : getD (dijkstra gXYZ "X") "X" = 0 :=
  dijkstra_source_zero gXYZ "X" (by decide)

/-- A selection pass over stations that all sit at `Infinity` ends on
`(null, Infinity)`. -/
theorem foldMin_all_top (m : List (String × DistVal)) :
    ∀ U : List String, (∀ v ∈ U, getD m v = ⊤) → foldMin U m = (none, ⊤) := by
  intro U
  induction U with
  | nil => exact fun _ => rfl
  | cons x U ih =>
    intro h
    unfold foldMin at ih ⊢
    rw [foldMinAux]
    have hstep : minStep m (none, ⊤) x = (none, ⊤) := by
      simp [minStep, h x (List.mem_cons_self x U)]
    rw [hstep]
    exact ih (fun v hv => h v (List.mem_cons_of_mem _ hv))

/-- C2 (counterexample).  Invoking `dijkstra` with the source id `"Q"`,
which is not a station of the example graph, does not fail: it returns a
distance map — every station at `Infinity` and the invalid source id
itself at 0. -/
theorem dijkstra_invalid_source_counterexample :
    dijkstra gXYZ "Q" = [("X", ⊤), ("Y", ⊤), ("Z", ⊤), ("Q", 0)] := by decide

/-- C2 (amended).  Invoking `dijkstra` with a source id that is not a
station never fails: it returns the distance map sending every station
to `Infinity` and the invalid source id to 0 (the caller in `App.tsx`
pre-validates workplace ids instead). -/
theorem dijkstra_invalid_source (g : Graph) (s : String)
    (hs : s ∉ g.nodeIds) :
    dijkstra g s = g.nodeIds.map (fun id => (id, (⊤ : DistVal))) ++ [(s, 0)] := by
  have hkeysmap : (g.nodeIds.map (fun id => (id, (⊤ : DistVal)))).map (·.1) = g.nodeIds := by
    simp [Function.comp_def]
  have hm0 : setD (g.nodeIds.map (fun id => (id, (⊤ : DistVal)))) s 0
      = g.nodeIds.map (fun id => (id, (⊤ : DistVal))) ++ [(s, 0)] := by
    unfold setD
    rw [hkeysmap, if_neg hs]
  show dijkstraLoop g g.nodeIds.length g.nodeIds _ = _
  rw [hm0]
  have htop : ∀ v ∈ g.nodeIds,
      getD (g.nodeIds.map (fun id => (id, (⊤ : DistVal))) ++ [(s, 0)]) v = ⊤ := by
    intro v hv
    have hvs : v ≠ s := fun h => hs (h ▸ hv)
    rw [getD_append_ne _ _ _ _ hvs, getD_map_top]
  rcases hlen : g.nodeIds.length with _ | n
  · rfl
  · have hids : g.nodeIds ≠ [] := by
      intro h
      rw [h] at hlen
      cases hlen
    have hfm := foldMin_all_top _ g.nodeIds htop
    simp only [dijkstraLoop, if_neg hids, hfm]

/-- Witness for the amended C2 on the example graph. -/
theorem dijkstra_invalid_source_witness :
    dijkstra gXYZ "Q" = gXYZ.nodeIds.map (fun id => (id, (⊤ : DistVal))) ++ [("Q", 0)] :=
  dijkstra_invalid_source gXYZ "Q" (by decide)

/-! ## Graph-store lemmas -/

/-- `pushEdge` never changes the key list. -/
theorem pushEdge_keys (es : List (String × List Edge)) (k : String) (e : Edge) :
    (Graph.pushEdge es k e).map (·.1) = es.map (·.1) := by
  induction es with
  | nil => rfl
  | cons p es ih =>
    by_cases hp : p.1 = k <;> simp [Graph.pushEdge, hp] <;>
      simpa [Graph.pushEdge] using ih

/-- `?.push` on an absent key is a no-op. -/
theorem pushEdge_not_mem (es : List (String × List Edge)) (k : String) (e : Edge)
    (h : k ∉ es.map (·.1)) : Graph.pushEdge es k e = es := by
  induction es with
  | nil => rfl
  | cons p es ih =>
    have hp : p.1 ≠ k := fun hk => h (by simp [hk])
    have h' : k ∉ es.map (·.1) := fun hk => h (by simp [hk])
    simp only [Graph.pushEdge, List.map_cons, if_neg hp]
    rw [show (Graph.pushEdge es k e) = es.map _ from rfl] at ih
    rw [ih h']

/-- Reading an empty adjacency map. -/
theorem lookupEdges_nil (k : String) : Graph.lookupEdges [] k = [] := rfl

/-- Unfolding an adjacency read over a cons cell. -/
theorem lookupEdges_cons (p : String × List Edge) (es : List (String × List Edge))
    (k : String) :
    Graph.lookupEdges (p :: es) k = if p.1 = k then p.2 else Graph.lookupEdges es k := by
  unfold Graph.lookupEdges
  rw [List.find?_cons]
  by_cases h : p.1 = k <;> simp [h]

/-- An absent key reads as the empty adjacency list. -/
theorem lookupEdges_not_mem (es : List (String × List Edge)) (k : String)
    (h : k ∉ es.map (·.1)) : Graph.lookupEdges es k = [] := by
  induction es with
  | nil => rfl
  | cons p es ih =>
    have hp : p.1 ≠ k := fun hk => h (by simp [hk])
    rw [lookupEdges_cons, if_neg hp]
    exact ih (fun hk => h (by simp [hk]))

/-- `pushEdge` leaves other keys' adjacency lists unchanged. -/
theorem lookupEdges_pushEdge_ne (es : List (String × List Edge)) (k : String)
    (e : Edge) (k' : String) (h : k' ≠ k) :
    Graph.lookupEdges (Graph.pushEdge es k e) k' = Graph.lookupEdges es k' := by
  induction es with
  | nil => rfl
  | cons p es ih =>
    rw [show Graph.pushEdge (p :: es) k e =
      (if p.1 = k then (p.1, p.2 ++ [e]) else p) :: Graph.pushEdge es k e from rfl]
    rw [lookupEdges_cons, lookupEdges_cons]
    by_cases hpk : p.1 = k
    · have hp' : p.1 ≠ k' := by rw [hpk]; exact fun hk => h hk.symm
      simp [hpk, hp', ih, h, Ne.symm h]
    · by_cases hp' : p.1 = k' <;> simp [hpk, hp', ih, h, Ne.symm h]

/-- `pushEdge` on a present key appends to that key's adjacency list. -/
theorem lookupEdges_pushEdge_self (es : List (String × List Edge)) (k : String)
    (e : Edge) (hk : k ∈ es.map (·.1)) :
    Graph.lookupEdges (Graph.pushEdge es k e) k = Graph.lookupEdges es k ++ [e] := by
  induction es with
  | nil => simp at hk
  | cons p es ih =>
    rw [show Graph.pushEdge (p :: es) k e =
      (if p.1 = k then (p.1, p.2 ++ [e]) else p) :: Graph.pushEdge es k e from rfl]
    rw [lookupEdges_cons, lookupEdges_cons]
    by_cases hpk : p.1 = k
    · simp [hpk]
    · have hk' : k ∈ es.map (·.1) := by
        rw [List.map_cons] at hk
        rcases List.mem_cons.mp hk with h | h
        · exact absurd h.symm hpk
        · exact h
      simp [hpk, ih hk']

/-- `addNode` never changes any adjacency read. -/
theorem lookupEdges_append_nilentry (es : List (String × List Edge))
    (x k : String) :
    Graph.lookupEdges (es ++ [(x, [])]) k = Graph.lookupEdges es k := by
  induction es with
  | nil =>
    rw [List.nil_append, lookupEdges_cons, lookupEdges_nil]
    by_cases h : x = k <;> simp [h]
  | cons p es ih =>
    rw [List.cons_append, lookupEdges_cons, lookupEdges_cons, ih]

/-- Adjacency reads are invariant under `addNode`. -/
theorem getEdges_addNode (g : Graph) (st : Station) (k : String) :
    (g.addNode st).getEdges k = g.getEdges k := by
  unfold Graph.addNode
  by_cases h : st.id ∈ g.nodeIds
  · rw [if_pos h]
  · rw [if_neg h]
    exact lookupEdges_append_nilentry g.edges st.id k

/-- The adjacency reads after a valid `addEdge`: the `from` list gains
`(to, w)`, the `to` list gains `(from, w)`, all others are unchanged. -/
theorem getEdges_addEdge (g : Graph) (a b : String) (w : Int)
    (ha : a ∈ g.edgeKeys) (hb : b ∈ g.edgeKeys) (k : String) :
    (g.addEdge a b w).getEdges k =
      g.getEdges k ++ (if k = a then [Edge.mk b w] else [])
        ++ (if k = b then [Edge.mk a w] else []) := by
  show Graph.lookupEdges (Graph.pushEdge (Graph.pushEdge g.edges a ⟨b, w⟩) b ⟨a, w⟩) k = _
  by_cases hkb : k = b
  · subst hkb
    rw [lookupEdges_pushEdge_self _ _ _ (by rw [pushEdge_keys]; exact hb)]
    by_cases hka : k = a
    · subst hka
      rw [lookupEdges_pushEdge_self _ _ _ ha]
      simp [Graph.getEdges]
    · rw [lookupEdges_pushEdge_ne _ _ _ _ hka]
      simp [Graph.getEdges, hka]
  · rw [lookupEdges_pushEdge_ne _ _ _ _ hkb]
    by_cases hka : k = a
    · subst hka
      rw [lookupEdges_pushEdge_self _ _ _ ha]
      simp [Graph.getEdges, hkb]
    · rw [lookupEdges_pushEdge_ne _ _ _ _ hka]
      simp [Graph.getEdges, hka, hkb]

/-- C3 (counterexample).  `addEdge` with a missing endpoint does not
fail: with both endpoints absent the graph is returned unchanged (the
edge is silently ignored), and with only `"X"` present a one-directional
entry is still appended to `"X"`'s list. -/
theorem addEdge_unknown_counterexample :
    Graph.empty.addEdge "A" "B" 1 = Graph.empty ∧
    (gX.addEdge "X" "Y" 3).getEdges "X" = [Edge.mk "Y" 3] ∧
    (gX.addEdge "X" "Y" 3).getEdges "Y" = [] := by decide

/-- C3 (amended).  `addEdge(a, b, w)` with a missing endpoint never
fails: the optional-chaining push is skipped for each absent endpoint,
so with both endpoints absent the graph is unchanged, and with exactly
one endpoint present only that endpoint's adjacency list is extended
(with a dangling directed entry). -/
theorem addEdge_missing_endpoint (g : Graph) (a b : String) (w : Int) :
    (a ∉ g.edgeKeys → b ∉ g.edgeKeys → g.addEdge a b w = g) ∧
    (b ∉ g.edgeKeys → g.addEdge a b w =
      ⟨g.nodes, Graph.pushEdge g.edges a (Edge.mk b w)⟩) ∧
    (a ∉ g.edgeKeys → g.addEdge a b w =
      ⟨g.nodes, Graph.pushEdge g.edges b (Edge.mk a w)⟩) ∧
    (a ∈ g.edgeKeys → b ∉ g.edgeKeys →
      (g.addEdge a b w).getEdges a = g.getEdges a ++ [Edge.mk b w]) := by
  have hpushb : b ∉ g.edgeKeys →
      g.addEdge a b w = ⟨g.nodes, Graph.pushEdge g.edges a (Edge.mk b w)⟩ := by
    intro hb
    show (⟨g.nodes, Graph.pushEdge (Graph.pushEdge g.edges a ⟨b, w⟩) b ⟨a, w⟩⟩ : Graph) = _
    rw [pushEdge_not_mem _ b _ (by rw [pushEdge_keys]; exact hb)]
  refine ⟨?_, hpushb, ?_, ?_⟩
  · intro ha hb
    rw [hpushb hb, pushEdge_not_mem _ a _ ha]
  · intro ha
    show (⟨g.nodes, Graph.pushEdge (Graph.pushEdge g.edges a ⟨b, w⟩) b ⟨a, w⟩⟩ : Graph) = _
    rw [pushEdge_not_mem _ a _ ha]
  · intro ha hb
    rw [hpushb hb]
    exact lookupEdges_pushEdge_self g.edges a (Edge.mk b w) ha

/-- Witness for the amended C3: adding an edge to the one-station graph
`gX` with endpoint `"Y"` missing leaves `"Y"` without an adjacency list
and appends a dangling entry on `"X"`. -/
theorem addEdge_missing_endpoint_witness :
    (gX.addEdge "X" "Y" 3).getEdges "X" = gX.getEdges "X" ++ [Edge.mk "Y" 3] :=
  (addEdge_missing_endpoint gX "X" "Y" 3).2.2.2 (by decide) (by decide)

/-- The empty graph is trivially symmetric. -/
theorem symm_empty : Graph.Symm Graph.empty := by
  intro u e he
  simp [Graph.getEdges, Graph.empty, Graph.lookupEdges] at he

/-- `addNode` preserves adjacency symmetry. -/
theorem symm_addNode (g : Graph) (st : Station) (h : Graph.Symm g) :
    Graph.Symm (g.addNode st) := by
  intro u e he
  rw [getEdges_addNode] at he ⊢
  exact h u e he

/-- A valid `addEdge` (both endpoints present) preserves adjacency
symmetry. -/
theorem symm_addEdge (g : Graph) (a b : String) (w : Int)
    (ha : a ∈ g.edgeKeys) (hb : b ∈ g.edgeKeys) (h : Graph.Symm g) :
    Graph.Symm (g.addEdge a b w) := by
  intro u e he
  rw [getEdges_addEdge g a b w ha hb] at he
  rw [getEdges_addEdge g a b w ha hb]
  rcases List.mem_append.mp he with he' | he2
  · rcases List.mem_append.mp he' with he0 | he1
    · exact List.mem_append.mpr (Or.inl (List.mem_append.mpr (Or.inl (h u e he0))))
    · by_cases hua : u = a
      · rw [if_pos hua] at he1
        have heq : e = Edge.mk b w := List.mem_singleton.mp he1
        subst heq
        subst hua
        refine List.mem_append.mpr (Or.inr ?_)
        rw [if_pos rfl]
        exact List.mem_singleton.mpr rfl
      · rw [if_neg hua] at he1
        cases he1
  · by_cases hub : u = b
    · rw [if_pos hub] at he2
      have heq : e = Edge.mk a w := List.mem_singleton.mp he2
      subst heq
      subst hub
      refine List.mem_append.mpr (Or.inl (List.mem_append.mpr (Or.inr ?_)))
      rw [if_pos rfl]
      exact List.mem_singleton.mpr rfl
    · rw [if_neg hub] at he2
      cases he2

/-- C4 (counterexample).  The graph reached by `addNode(X)` followed by
the (endpoint-missing) call `addEdge("X", "Y", 3)` violates adjacency
symmetry: `"X"`'s list contains `("Y", 3)` but `"Y"`'s list does not
contain `("X", 3)`. -/
theorem addEdge_symmetry_counterexample :
    Edge.mk "Y" 3 ∈ (gX.addEdge "X" "Y" 3).getEdges "X" ∧
    Edge.mk "X" 3 ∉ (gX.addEdge "X" "Y" 3).getEdges "Y" := by decide

/-- Every graph built with valid `addEdge` calls only is symmetric. -/
theorem built_symm (g : Graph) (hg : Graph.Built g) : Graph.Symm g := by
  induction hg with
  | empty => exact symm_empty
  | node g' st _ ih => exact symm_addNode g' st ih
  | edge g' a' b' w' _ ha' hb' ih => exact symm_addEdge g' a' b' w' ha' hb' ih

/-- C4 (amended).  Adjacency symmetry is an invariant of every graph
reachable by `addNode`/`addEdge` sequences in which every `addEdge` has
both endpoints present: after such an `addEdge(a, b, w)`, `a`'s
adjacency contains `(b, w)`, `b`'s adjacency contains `(a, w)`, and
every stored entry of the resulting graph has its reverse entry with
equal weight. -/
theorem addEdge_symm (g : Graph) (hg : Graph.Built g) (a b : String) (w : Int)
    (ha : a ∈ g.edgeKeys) (hb : b ∈ g.edgeKeys) :
    Edge.mk b w ∈ (g.addEdge a b w).getEdges a ∧
    Edge.mk a w ∈ (g.addEdge a b w).getEdges b ∧
    Graph.Symm (g.addEdge a b w) := by
  have hsymm : Graph.Symm g := built_symm g hg
  refine ⟨?_, ?_, symm_addEdge g a b w ha hb hsymm⟩
  · rw [getEdges_addEdge g a b w ha hb]
    refine List.mem_append.mpr (Or.inl (List.mem_append.mpr (Or.inr ?_)))
    rw [if_pos rfl]
    exact List.mem_singleton.mpr rfl
  · rw [getEdges_addEdge g a b w ha hb]
    refine List.mem_append.mpr (Or.inr ?_)
    rw [if_pos rfl]
    exact List.mem_singleton.mpr rfl

/-- Witness for the amended C4 on the two-station graph. -/
theorem addEdge_symm_witness :
    Edge.mk "Y" 5 ∈ (gXY.addEdge "X" "Y" 5).getEdges "X" ∧
    Edge.mk "X" 5 ∈ (gXY.addEdge "X" "Y" 5).getEdges "Y" := by
  have h := addEdge_symm gXY
    (Graph.Built.node _ stY (Graph.Built.node _ stX Graph.Built.empty))
    "X" "Y" 5 (by decide) (by decide)
  exact ⟨h.1, h.2.1⟩

/-! ## Ranking-engine theorems -/

/-- `qmax` is the lattice `max` on `ℚ`. -/
theorem qmax_eq_max (x y : ℚ) : qmax x y = max x y := (max_def x y).symm

/-- `qmin` is the lattice `min` on `ℚ`. -/
theorem qmin_eq_min (x y : ℚ) : qmin x y = min x y := (min_def x y).symm

/-- C10.  For every `ratio` in `[0, 100]` the derived weights satisfy
`wA ≥ 1/2` and `wB ≥ 1/2`, and the favored commuter's weight is at least
1 (`wA ≥ 1` when `ratio ≤ 50`, `wB ≥ 1` when `ratio ≥ 50`), so neither
commuter's time is ever given zero or negative weight. -/
theorem weights_bounds (ratio : ℚ) (h0 : 0 ≤ ratio) (h100 : ratio ≤ 100) :
    1/2 ≤ (weights ratio).1 ∧ 1/2 ≤ (weights ratio).2 ∧
    (ratio ≤ 50 → 1 ≤ (weights ratio).1) ∧
    (50 ≤ ratio → 1 ≤ (weights ratio).2) := by
  have hq : ∀ x y : ℚ, x ≤ qmax x y := by
    intro x y
    unfold qmax
    split
    · assumption
    · exact le_rfl
  unfold weights
  by_cases hlt : ratio < 50
  · rw [if_pos hlt]
    exact ⟨by dsimp only; linarith, hq _ _, fun _ => by dsimp only; linarith,
      fun h50 => absurd hlt (not_lt.mpr h50)⟩
  · rw [if_neg hlt]
    by_cases hgt : 50 < ratio
    · rw [if_pos hgt]
      exact ⟨hq _ _, by dsimp only; linarith,
        fun h50 => absurd hgt (not_lt.mpr h50), fun _ => by dsimp only; linarith⟩
    · rw [if_neg hgt]
      norm_num

/-- Witness for C10 at `ratio = 30` (A-favoring). -/
theorem weights_bounds_witness :
    1 ≤ (weights 30).1 ∧ 1/2 ≤ (weights 30).2 :=
  ⟨(weights_bounds 30 (by norm_num) (by norm_num)).2.2.1 (by norm_num),
   (weights_bounds 30 (by norm_num) (by norm_num)).2.1⟩

/-- C9.  The end-to-end query is deterministic: two runs of
`computeBestStations` on equal graphs with equal workplaces, ratio,
lambda and budget return equal ordered result lists — the embedding is a
pure function and the source invokes no randomness in this path
(`Math.random` only appears in the excluded fixture generator). -/
theorem computeBestStations_deterministic (g g' : Graph)
    (wpA wpA' wpB wpB' : String) (ratio ratio' lam lam' budget budget' : ℚ)
    (hg : g = g') (hA : wpA = wpA') (hB : wpB = wpB')
    (hr : ratio = ratio') (hl : lam = lam') (hb : budget = budget') :
    computeBestStations g wpA wpB ratio lam budget =
      computeBestStations g' wpA' wpB' ratio' lam' budget' := by
  subst hg
  subst hA
  subst hB
  subst hr
  subst hl
  subst hb
  rfl

/-- Witness for C9 on the three-station line. -/
theorem computeBestStations_deterministic_witness :
    computeBestStations gXYZ "X" "Z" 50 (1/2) 150000 =
      computeBestStations gXYZ "X" "Z" 50 (1/2) 150000 :=
  computeBestStations_deterministic gXYZ gXYZ "X" "X" "Z" "Z" 50 50 (1/2) (1/2)
    150000 150000 rfl rfl rfl rfl rfl rfl

/-- C6.  The ranking scores exactly those stations whose distances from
both workplaces are present and finite, and every entry of the returned
result list records finite distances in both maps — a station
unreachable from either workplace never appears. -/
theorem calculateResults_finite_only (stations : List Station)
    (distA distB : List (String × DistVal)) (ratio lam budget : ℚ) :
    (∀ st ∈ stations,
      (scoredOf distA distB (weights ratio).1 (weights ratio).2 lam budget st).isSome
        ↔ (finiteAt distA st.id = true ∧ finiteAt distB st.id = true)) ∧
    (∀ r ∈ calculateResults stations distA distB ratio lam budget,
      finiteAt distA r.station.id = true ∧ finiteAt distB r.station.id = true) := by
  constructor
  · intro st _
    unfold scoredOf finiteAt
    rcases hA : finVal (getOpt distA st.id) with _ | tA <;>
      rcases hB : finVal (getOpt distB st.id) with _ | tB <;>
      simp [hA, hB]
  · intro r hr
    have hr1 : r ∈ sortByScoreDesc (scoredStations stations distA distB ratio lam budget) :=
      List.take_subset _ _ hr
    have hr2 : r ∈ scoredStations stations distA distB ratio lam budget :=
      (List.perm_insertionSort _ _).mem_iff.mp hr1
    obtain ⟨st, _, hsome⟩ := List.mem_filterMap.mp hr2
    unfold scoredOf at hsome
    rcases hA : finVal (getOpt distA st.id) with _ | tA <;> rw [hA] at hsome
    · exact Option.noConfusion hsome
    rcases hB : finVal (getOpt distB st.id) with _ | tB <;> rw [hB] at hsome
    · exact Option.noConfusion hsome
    have hst : r.station = st := by
      rw [← Option.some.inj hsome]
    unfold finiteAt
    rw [hst, hA, hB]
    exact ⟨rfl, rfl⟩

/-- Witness for C6: the returned station of a concrete one-station query
has finite recorded distances in both maps. -/
theorem calculateResults_finite_only_witness :
    finiteAt dAX rEx.station.id = true ∧ finiteAt dBX rEx.station.id = true :=
  (calculateResults_finite_only [stX] dAX dBX 50 (1/2) 150000).2 rEx
    ((show calculateResults [stX] dAX dBX 50 (1/2) 150000 = [rEx] by
      norm_num [calculateResults, scoredStations, scoredOf, weights, getOpt,
        finVal, dAX, dBX, stX, rEx, qmax, qmin, generateMockAIReasons,
        List.find?, List.filterMap, sortByScoreDesc]) ▸
      List.mem_singleton.mpr rfl)

/-- C7.  For every scored station, the returned score equals
`100 - ((λ·max(wA·tA, wB·tB) + (1-λ)·(wA·tA + wB·tB))/120)·100`, reduced
by exactly 15 points before clamping exactly when `rent > budget`, and
then clamped to `[0, 100]`. -/
theorem scoredOf_score_formula (distA distB : List (String × DistVal))
    (wA wB lam budget : ℚ) (st : Station) (tA tB : Int)
    (hA : finVal (getOpt distA st.id) = some tA)
    (hB : finVal (getOpt distB st.id) = some tB) (r : StationResult)
    (hr : scoredOf distA distB wA wB lam budget st = some r) :
    r.score = max 0 (min 100
      ((100 - (lam * max (wA * tA) (wB * tB)
          + (1 - lam) * (wA * tA + wB * tB)) / 120 * 100)
        - (if budget < (st.rent : ℚ) then 15 else 0))) := by
  unfold scoredOf at hr
  rw [hA, hB] at hr
  rw [← Option.some.inj hr]
  dsimp only
  simp only [qmax_eq_max, qmin_eq_min]
  by_cases hb : budget < (st.rent : ℚ)
  · rw [if_pos hb, if_pos hb]
  · rw [if_neg hb, if_neg hb, sub_zero]

/-- Witness for C7 on a concrete scored station. -/
theorem scoredOf_score_formula_witness :
    rEx.score = max 0 (min 100
      ((100 - ((1 : ℚ)/2 * max ((1 : ℚ) * ((5 : Int) : ℚ)) ((1 : ℚ) * ((7 : Int) : ℚ))
          + (1 - (1 : ℚ)/2) * ((1 : ℚ) * ((5 : Int) : ℚ) + (1 : ℚ) * ((7 : Int) : ℚ))) / 120 * 100)
        - (if (150000 : ℚ) < (stX.rent : ℚ) then 15 else 0))) :=
  scoredOf_score_formula dAX dBX 1 1 (1/2) 150000 stX 5 7 rfl rfl rEx
    (by norm_num [scoredOf, getOpt, finVal, dAX, dBX, stX, rEx, qmax, qmin,
      generateMockAIReasons, List.find?])

/-- Filtering an ordered insert to one score class: elements passed over
by the insertion have strictly larger scores, so the class order is the
insertion order. -/
theorem filter_orderedInsert_score (x : StationResult) (l : List StationResult) (c : ℚ) :
    (l.orderedInsert (fun a b => b.score ≤ a.score) x).filter
        (fun y => decide (y.score = c)) =
      if x.score = c then x :: l.filter (fun y => decide (y.score = c))
      else l.filter (fun y => decide (y.score = c)) := by
  induction l with
  | nil =>
    by_cases hx : x.score = c <;> simp [hx]
  | cons y l ih =>
    by_cases hxy : y.score ≤ x.score
    · rw [List.orderedInsert_of_le (fun a b : StationResult => b.score ≤ a.score) l hxy]
      by_cases hx : x.score = c <;> by_cases hy : y.score = c <;>
        simp [List.filter_cons, hx, hy]
    · simp only [List.orderedInsert, if_neg hxy]
      by_cases hx : x.score = c
      · have hy : ¬ (y.score = c) := fun h => hxy (le_of_eq (by rw [h, hx]))
        simp [List.filter_cons, hx, hy, ih]
      · simp [List.filter_cons, hx, ih]

/-- The stable sort preserves each score class in listing order. -/
theorem filter_sortByScoreDesc (l : List StationResult) (c : ℚ) :
    (sortByScoreDesc l).filter (fun y => decide (y.score = c)) =
      l.filter (fun y => decide (y.score = c)) := by
  induction l with
  | nil => rfl
  | cons x l ih =>
    show (List.orderedInsert _ x (sortByScoreDesc l)).filter _ = _
    rw [filter_orderedInsert_score]
    by_cases hx : x.score = c <;> simp [List.filter_cons, hx, ih]

/-- C8.  The returned result list is sorted in descending score order,
holds at most the top 10 entries of the stable descending sort of the
scored stations, and the sort keeps stations of equal score in the
graph's station listing (insertion) order: filtering the sorted list to
any one score value yields exactly the scored list filtered to that
value, in order. -/
theorem calculateResults_sorted_top10 (stations : List Station)
    (distA distB : List (String × DistVal)) (ratio lam budget : ℚ) :
    (calculateResults stations distA distB ratio lam budget).length ≤ 10 ∧
    List.Sorted (fun a b : StationResult => b.score ≤ a.score)
      (calculateResults stations distA distB ratio lam budget) ∧
    calculateResults stations distA distB ratio lam budget =
      (sortByScoreDesc (scoredStations stations distA distB ratio lam budget)).take 10 ∧
    (∀ c : ℚ,
      (sortByScoreDesc (scoredStations stations distA distB ratio lam budget)).filter
          (fun y => decide (y.score = c)) =
        (scoredStations stations distA distB ratio lam budget).filter
          (fun y => decide (y.score = c))) := by
  refine ⟨?_, ?_, rfl, fun c => filter_sortByScoreDesc _ c⟩
  · show ((sortByScoreDesc _).take 10).length ≤ 10
    rw [List.length_take]
    exact min_le_left _ _
  · have hs : List.Sorted (fun a b : StationResult => b.score ≤ a.score)
        (sortByScoreDesc (scoredStations stations distA distB ratio lam budget)) :=
      List.sorted_insertionSort _ _
    exact List.Pairwise.sublist (List.take_sublist _ _) hs
